import Mathlib

/-!
Verification of the repository's single script `ios/fix-googlesignin-package.py`.

The script has three parts:
* `find_package_file` : locate `Package.swift` of GoogleSignIn-iOS below the
  user's Xcode DerivedData directory via one `glob` with a single `*` segment;
* `fix_package_swift` : read the file, apply a fixed ordered sequence of
  twelve textual substitutions (six regex rewrites dropping the `name:`
  argument of `.package(...)` declarations, one regex rewrite converting
  `.revision("x")` to `revision: "x"`, five literal `str.replace` renames of
  `package: "..."` references), and, when the text changed, chmod the file to
  0o644 and rewrite it, returning a changed flag;
* `main` : wire the two together and print fixed status lines, always
  finishing normally.

The text transform is modelled over `List Char`.  All three substitution
kinds are instances of one left-to-right scanner `scan`: at each position a
matcher either yields a replacement plus the remainder after the matched
region (the scanner emits the replacement and continues after the region,
exactly like `re.sub` / `str.replace`), or the character is copied verbatim.
The regex patterns of the script backtrack trivially (`\s*` is followed by a
non-space literal, `[^"]+` cannot cross a quote), so each is a deterministic
anchored matcher.  Whitespace is modelled by the ASCII part of the `\s`
class, which is what every pattern in the file can meet in a manifest.
File-system effects are modelled as an explicit operation trace.
-/

/-- Whitespace test for the `\s*` gaps of the script's regexes
(ASCII: space, tab, newline, carriage return, vertical tab, form feed). -/
def isSpaceChar (c : Char) : Bool :=
  c = ' ' || c = '\t' || c = '\n' || c = '\r' || c = '\x0b' || c = '\x0c'

/-- Drop a literal token from the front of a character list, failing when the
token is not present.  Building block for the anchored pattern pieces. -/
def dropLit (p l : List Char) : Option (List Char) :=
  if p.isPrefixOf l then some (l.drop p.length) else none

/-- One-pass left-to-right rewriting engine shared by all twelve
substitutions of `fix_package_swift`.  The `Nat` argument is a skip counter
letting the recursion stay structural on the list: after a match the scanner
must resume right after the matched region. -/
def scanCore (m : List Char → Option (List Char × List Char)) :
    Nat → List Char → List Char
  | _, [] => []
  | k + 1, _ :: t => scanCore m k t
  | 0, c :: t =>
    match m (c :: t) with
    | some (rep, rem) => rep ++ scanCore m (t.length - rem.length) t
    | none => c :: scanCore m 0 t

/-- Left-to-right rewriting with matcher `m`, starting at the first
position. -/
def scan (m : List Char → Option (List Char × List Char)) (l : List Char) :
    List Char :=
  scanCore m 0 l

/-- A matcher is sound when a match consumes at least one character and the
remainder it reports is the true tail of the input after the match. -/
def Sound (m : List Char → Option (List Char × List Char)) : Prop :=
  ∀ l rep rem, m l = some (rep, rem) → rem <:+ l ∧ rem.length < l.length

/-- Matcher of a plain literal occurrence, as used by Python `str.replace`. -/
def litMatcher (p r : List Char) (l : List Char) :
    Option (List Char × List Char) :=
  if p ≠ [] ∧ p.isPrefixOf l then some (r, l.drop p.length) else none

/-- Python `content.replace(p, r)`: replace every occurrence of `p`,
left to right, never rescanning emitted replacements. -/
def replaceAll (p r l : List Char) : List Char :=
  scan (litMatcher p r) l

/-- Literal head piece `.package(` of the declaration regexes. -/
def pkgPat1 : List Char := ".package(".toList

/-- Literal tail piece `url:` of the declaration regexes. -/
def pkgPat2 : List Char := "url:".toList

/-- Replacement text `.package(url:` of the declaration rewrites. -/
def pkgRep : List Char := ".package(url:".toList

/-- Rigid middle piece `name: "<name>",` of a declaration regex: the regexes
have `\s*` only after the opening parenthesis and after the comma. -/
def nameSeg (name : List Char) : List Char :=
  "name: \"".toList ++ name ++ "\",".toList

/-- Anchored match of `\.package\(\s*name: "<name>",\s*url:` at the head of
`l`, returning the remainder after the match.  Greedy `\s*` before a
non-space literal never backtracks, so the regex is this deterministic
matcher. -/
def matchPkgAt (name l : List Char) : Option (List Char) :=
  match dropLit pkgPat1 l with
  | none => none
  | some l1 =>
    match dropLit (nameSeg name) (l1.dropWhile isSpaceChar) with
    | none => none
    | some l3 => dropLit pkgPat2 (l3.dropWhile isSpaceChar)

/-- Declaration-simplification matcher for one dependency name. -/
def pkgMatcher (name : List Char) (l : List Char) :
    Option (List Char × List Char) :=
  (matchPkgAt name l).map (fun rem => (pkgRep, rem))

/-- `re.sub` of one declaration-simplification pattern over the buffer. -/
def subPkg (name l : List Char) : List Char :=
  scan (pkgMatcher name) l

/-- Literal head piece `.revision("` of the pin regex. -/
def revPat1 : List Char := ".revision(\"".toList

/-- Literal tail piece `")` of the pin regex. -/
def revPat2 : List Char := "\")".toList

/-- Head piece `revision: "` of the pin replacement `revision: "\1"`. -/
def revRepPre : List Char := "revision: \"".toList

/-- Anchored match of `\.revision\("([^"]+)"\)` at the head of `l`,
returning the substituted replacement (capture kept verbatim) and the
remainder.  `[^"]+` cannot cross a quote, so greedy matching is maximal-munch
up to the first quote with no backtracking. -/
def matchRevAt (l : List Char) : Option (List Char × List Char) :=
  match dropLit revPat1 l with
  | none => none
  | some l1 =>
    if l1.takeWhile (fun c => c != '"') = [] then none
    else
      match dropLit revPat2 (l1.dropWhile (fun c => c != '"')) with
      | none => none
      | some rem =>
        some (revRepPre ++ l1.takeWhile (fun c => c != '"') ++ ['"'], rem)

/-- `re.sub` of the pin-normalisation pattern over the buffer. -/
def subRev (l : List Char) : List Char :=
  scan matchRevAt l

/-- Matcher trying a list of literal (pattern, replacement) pairs in order at
one position; models a simultaneous one-pass multi-literal replacement. -/
def multiMatcher (ps : List (List Char × List Char)) (l : List Char) :
    Option (List Char × List Char) :=
  match ps with
  | [] => none
  | pr :: rest =>
    if pr.1 ≠ [] ∧ pr.1.isPrefixOf l then some (pr.2, l.drop pr.1.length)
    else multiMatcher rest l

/-- Simultaneous one-pass replacement of several literals. -/
def replaceSim (ps : List (List Char × List Char)) (l : List Char) :
    List Char :=
  scan (multiMatcher ps) l

/-- Sequential composition of literal replacements in list order, the shape
of the script's chain of `content.replace` calls. -/
def seqReplace (ps : List (List Char × List Char)) (l : List Char) :
    List Char :=
  ps.foldl (fun acc pr => replaceAll pr.1 pr.2 acc) l

/-- Dependency name `AppAuth`. -/
def nmAppAuth : List Char := "AppAuth".toList

/-- Dependency name `AppCheck`. -/
def nmAppCheck : List Char := "AppCheck".toList

/-- Dependency name `GTMAppAuth`. -/
def nmGTMAppAuth : List Char := "GTMAppAuth".toList

/-- Dependency name `GTMSessionFetcher`. -/
def nmGTMSessionFetcher : List Char := "GTMSessionFetcher".toList

/-- Dependency name `GoogleUtilities`. -/
def nmGoogleUtilities : List Char := "GoogleUtilities".toList

/-- Dependency name `OCMock`. -/
def nmOCMock : List Char := "OCMock".toList

/-- Renamed identifier `appauth-ios`. -/
def nmAppAuthNew : List Char := "appauth-ios".toList

/-- Renamed identifier `app-check`. -/
def nmAppCheckNew : List Char := "app-check".toList

/-- Renamed identifier `gtmappauth`. -/
def nmGTMAppAuthNew : List Char := "gtmappauth".toList

/-- Renamed identifier `gtm-session-fetcher`. -/
def nmGTMSessionFetcherNew : List Char := "gtm-session-fetcher".toList

/-- Renamed identifier `googleutilities`. -/
def nmGoogleUtilitiesNew : List Char := "googleutilities".toList

/-- The six names whose two-argument declarations the script simplifies, in
the order of the script's `re.sub` calls. -/
def pkgNames : List (List Char) :=
  [nmAppAuth, nmAppCheck, nmGTMAppAuth, nmGTMSessionFetcher,
   nmGoogleUtilities, nmOCMock]

/-- The literal `package: "<x>"` around a package-reference identifier. -/
def refLit (x : List Char) : List Char :=
  "package: \"".toList ++ x ++ ['"']

/-- The five literal (pattern, replacement) pairs of the reference renames,
in the order of the script's `str.replace` calls. -/
def renamePairs : List (List Char × List Char) :=
  [(refLit nmAppAuth, refLit nmAppAuthNew),
   (refLit nmAppCheck, refLit nmAppCheckNew),
   (refLit nmGTMAppAuth, refLit nmGTMAppAuthNew),
   (refLit nmGTMSessionFetcher, refLit nmGTMSessionFetcherNew),
   (refLit nmGoogleUtilities, refLit nmGoogleUtilitiesNew)]

/-- Stage three of the transform: the five reference renames in order. -/
def applyRenames (l : List Char) : List Char :=
  seqReplace renamePairs l

/-- The whole text transform of `fix_package_swift`, in the exact statement
order of the script: six declaration simplifications, the pin
normalisation, then the five reference renames. -/
def fix_content (l : List Char) : List Char :=
  applyRenames (subRev
    (subPkg nmOCMock (subPkg nmGoogleUtilities (subPkg nmGTMSessionFetcher
      (subPkg nmGTMAppAuth (subPkg nmAppCheck (subPkg nmAppAuth l)))))))

/-- A file-system effect performed by the script. -/
inductive FsOp where
  | chmod : Nat → FsOp
  | write : List Char → FsOp
deriving DecidableEq

/-- `fix_package_swift` on a file whose current text is `content`: the trace
of file-system operations it performs, in order, and its boolean result. -/
def fix_package_swift (content : List Char) : List FsOp × Bool :=
  let c := fix_content content
  if c ≠ content then ([FsOp.chmod 0o644, FsOp.write c], true) else ([], false)

/-- A file as content plus permission bits. -/
structure FileState where
  content : List Char
  mode : Nat
deriving DecidableEq

/-- Effect of a trace of file-system operations on a file. -/
def applyOps (st : FileState) : List FsOp → FileState
  | [] => st
  | FsOp.chmod m :: rest => applyOps { st with mode := m } rest
  | FsOp.write c :: rest => applyOps { st with content := c } rest

/-- The fixed base directory `<home>/Library/Developer/Xcode/DerivedData/`
of the locator's glob pattern. -/
def derivedDataDir (home : List Char) : List Char :=
  home ++ "/Library/Developer/Xcode/DerivedData/".toList

/-- The fixed tail `/SourcePackages/checkouts/GoogleSignIn-iOS/Package.swift`
of the locator's glob pattern. -/
def checkoutTail : List Char :=
  "/SourcePackages/checkouts/GoogleSignIn-iOS/Package.swift".toList

/-- A path is an instance of the locator's single-wildcard pattern: base
directory, one non-empty slash-free directory name, fixed tail. -/
def matchesGlobPattern (home p : List Char) : Prop :=
  ∃ seg : List Char,
    seg ≠ [] ∧ '/' ∉ seg ∧ p = derivedDataDir home ++ seg ++ checkoutTail

/-- Environment seen by `find_package_file`: whether the DerivedData base
directory exists and, when it does, the glob result in glob order.  The glob
library only ever reports instances of its pattern, recorded by
`glob_sound`. -/
structure LocatorEnv where
  home : List Char
  ddExists : Bool
  globResult : List (List Char)
  glob_sound : ∀ p ∈ globResult, matchesGlobPattern home p

/-- `find_package_file`: `None` when the base directory is missing,
otherwise the first glob match if any.  Total, hence never raises. -/
def find_package_file (env : LocatorEnv) : Option (List Char) :=
  if env.ddExists = false then none
  else
    match env.globResult with
    | [] => none
    | m :: _ => some m

/-- First line printed when no file is found. -/
def msgNotFound1 : List Char :=
  "GoogleSignIn-iOS Package.swift not found.".toList

/-- Second line printed when no file is found. -/
def msgNotFound2 : List Char :=
  "Make sure Xcode has resolved packages first.".toList

/-- Static part of the `Found Package.swift at: ...` line. -/
def msgFoundPre : List Char := "Found Package.swift at: ".toList

/-- Status line printed when the rewriter reports a change. -/
def msgFixed : List Char :=
  "✓ Fixed deprecated syntax in GoogleSignIn-iOS Package.swift".toList

/-- Status line printed when the rewriter reports no change. -/
def msgAlready : List Char :=
  "Package.swift already fixed or doesn\x27t need fixing".toList

/-- Observable outcome of one run of `main`: stdout lines, the file-system
trace, and the process exit code. -/
structure MainResult where
  lines : List (List Char)
  ops : List FsOp
  exitCode : Nat

/-- Environment of a run of `main`: the locator's environment and the
content of the found file (read only when a file is found). -/
structure MainEnv where
  loc : LocatorEnv
  content : List Char

/-- `main`: locate the file; if absent print two fixed lines and finish,
else print the path, run the rewriter and print one of two status lines.
Normal completion always exits with code 0. -/
def main_run (env : MainEnv) : MainResult :=
  match find_package_file env.loc with
  | none => ⟨[msgNotFound1, msgNotFound2], [], 0⟩
  | some p =>
    let res := fix_package_swift env.content
    ⟨[msgFoundPre ++ p, if res.2 then msgFixed else msgAlready], res.1, 0⟩

/-- Does the matcher fire at any position (that is, at any suffix) of the
buffer? -/
def anyMatch (m : List Char → Option (List Char × List Char)) :
    List Char → Bool
  | [] => (m []).isSome
  | c :: t => (m (c :: t)).isSome || anyMatch m t

/-- No non-empty suffix of `a` is compatible with the start of `b`: for
every `j < a.length`, neither is `a.drop j` a prefix of `b` nor `b` a prefix
of `a.drop j`.  Decidable independence condition between literals. -/
def SufpreFree (a b : List Char) : Prop :=
  ∀ j, j < a.length → ¬(a.drop j <+: b ∨ b <+: a.drop j)

/-- Side conditions making a family of literal replacements mutually
non-interfering: patterns are non-empty, pairs are distinct, and for
distinct pairs no pattern suffix can open the other pattern or its
replacement, nor can a replacement suffix open the other pattern. -/
def GoodPairs (ps : List (List Char × List Char)) : Prop :=
  ps.Nodup ∧ (∀ pr ∈ ps, pr.1 ≠ []) ∧
    ∀ pr ∈ ps, ∀ pr' ∈ ps, pr ≠ pr' →
      SufpreFree pr.1 pr'.1 ∧ SufpreFree pr.1 pr'.2 ∧ SufpreFree pr.2 pr'.1

/-- None of the twelve substitutions of the transform fires anywhere in the
buffer. -/
def noResidual (l : List Char) : Bool :=
  pkgNames.all (fun n => !anyMatch (pkgMatcher n) l) &&
    !anyMatch matchRevAt l &&
    renamePairs.all (fun pr => !anyMatch (litMatcher pr.1 pr.2) l)

/-- Example declaration from the specification's end-to-end scenario. -/
def exDeclIn : List Char :=
  ".package(name: \"AppAuth\", url: \"https://x\")".toList

/-- Expected simplified form of `exDeclIn`. -/
def exDeclOut : List Char := ".package(url: \"https://x\")".toList

/-- Same declaration with two spaces after `name:` instead of one. -/
def exDeclWsIn : List Char :=
  ".package(name:  \"AppAuth\", url: \"https://x\")".toList

/-- Declaration naming a dependency outside the six targets. -/
def exDeclOther : List Char :=
  ".package(name: \"SomethingElse\", url: \"https://x\")".toList

/-- Example pin from the specification's end-to-end scenario. -/
def exRevIn : List Char := ".revision(\"1.2.3\")".toList

/-- Expected keyword form of `exRevIn`. -/
def exRevOut : List Char := "revision: \"1.2.3\"".toList

/-- Pin whose captured value would be empty. -/
def exRevEmptyIn : List Char := ".revision(\"\")".toList

/-- Keyword form the claim expects for an empty pin value. -/
def exRevEmptyTarget : List Char := "revision: \"\"".toList

/-- Buffer with two pins. -/
def exRevTwoIn : List Char := ".revision(\"a\").revision(\"b\")".toList

/-- Both pins of `exRevTwoIn` converted. -/
def exRevTwoOut : List Char := "revision: \"a\"revision: \"b\"".toList

/-- Example reference from the specification's end-to-end scenario. -/
def exRenameIn : List Char := "package: \"GoogleUtilities\"".toList

/-- Expected renamed form of `exRenameIn`. -/
def exRenameOut : List Char := "package: \"googleutilities\"".toList

/-- Reference to an identifier outside the five rename pairs. -/
def exRenameOther : List Char := "package: \"SomeOther\"".toList

/-- Buffer on which the transform is not idempotent: the pin value
`.package(name: ` splices with the text after the pin into a declaration
that only a second run simplifies. -/
def exSplice : List Char :=
  ".revision(\".package(name: \")AppAuth\", url:".toList

/-- Buffer containing none of the targeted patterns. -/
def exPlain : List Char := "hello world".toList

/-- Example home directory for the locator model. -/
def exHome : List Char := "/Users/dev".toList

/-- Example DerivedData build-cache directory name. -/
def exSeg : List Char := "MyApp-abcdefgh".toList

/-- Example full path produced by the locator's glob. -/
def exPath : List Char := derivedDataDir exHome ++ exSeg ++ checkoutTail

/-- Locator environment whose base directory is missing. -/
def envMissing : LocatorEnv :=
  ⟨exHome, false, [], by intro p hp; exact absurd hp (List.not_mem_nil p)⟩

/-- Locator environment with one glob match. -/
def envFound : LocatorEnv :=
  ⟨exHome, true, [exPath], by
    intro p hp
    have hp' : p = exPath := by simpa using hp
    subst hp'
    exact ⟨exSeg, by decide, by decide, rfl⟩⟩

/-- A suffix equals the drop of its host at the length difference. -/
theorem suffix_eq_drop {l₁ l₂ : List Char} (h : l₁ <:+ l₂) :
    l₁ = l₂.drop (l₂.length - l₁.length) := by
  obtain ⟨u, rfl⟩ := h
  have hlen : (u ++ l₁).length - l₁.length = u.length := by simp
  rw [hlen, List.drop_left]

/-- A prefix of an append is a prefix of the left part or extends it. -/
theorem pre_append_split {a b c : List Char} (h : a <+: b ++ c) :
    a <+: b ∨ b <+: a := by
  obtain ⟨t, ht⟩ := h
  rcases Nat.le_total a.length b.length with hle | hle
  · left
    have h1 : (b ++ c).take a.length = a := by
      rw [← ht, List.take_left]
    have h2 : (b ++ c).take a.length = b.take a.length :=
      List.take_append_of_le_length hle
    rw [h1] at h2
    rw [h2]
    exact List.take_prefix _ _
  · right
    have h1 : (b ++ c).take b.length = b := List.take_left b c
    have h2 : (a ++ t).take b.length = a.take b.length :=
      List.take_append_of_le_length hle
    rw [← ht, h2] at h1
    rw [← h1]
    exact List.take_prefix _ _

/-- Skipping `k` characters scans the `k`-dropped buffer. -/
theorem scanCore_skip (m : List Char → Option (List Char × List Char)) :
    ∀ (k : Nat) (l : List Char), scanCore m k l = scanCore m 0 (l.drop k) := by
  intro k
  induction k with
  | zero => intro l; rfl
  | succ n ih =>
    intro l
    cases l with
    | nil => rfl
    | cons c t => simpa [scanCore] using ih t

/-- Step equation of the scanner for a sound matcher. -/
theorem scan_eq_match {m : List Char → Option (List Char × List Char)}
    (hm : Sound m) (c : Char) (t : List Char) :
    scan m (c :: t) =
      match m (c :: t) with
      | some (rep, rem) => rep ++ scan m rem
      | none => c :: scan m t := by
  unfold scan
  cases h : m (c :: t) with
  | none => simp [scanCore, h]
  | some pr =>
    obtain ⟨rep, rem⟩ := pr
    obtain ⟨hsuf, hlen⟩ := hm _ _ _ h
    have hrem : rem <:+ t := by
      rcases List.suffix_cons_iff.mp hsuf with h1 | h1
      · rw [h1] at hlen
        exact absurd hlen (lt_irrefl _)
      · exact h1
    have hdrop : t.drop (t.length - rem.length) = rem := (suffix_eq_drop hrem).symm
    simp only [scanCore, h]
    rw [scanCore_skip, hdrop]

/-- Scanner on a buffer whose head position does not match. -/
theorem scan_cons_none {m : List Char → Option (List Char × List Char)}
    (hm : Sound m) {c : Char} {t : List Char} (h : m (c :: t) = none) :
    scan m (c :: t) = c :: scan m t := by
  rw [scan_eq_match hm, h]

/-- Scanner on a buffer whose head position matches. -/
theorem scan_some {m : List Char → Option (List Char × List Char)}
    (hm : Sound m) {l rep rem : List Char} (h : m l = some (rep, rem)) :
    scan m l = rep ++ scan m rem := by
  cases l with
  | nil =>
    have := (hm _ _ _ h).2
    simp at this
  | cons c t => rw [scan_eq_match hm, h]

/-- The scanner copies the first `k` characters verbatim when no match
starts among them. -/
theorem scan_copy {m : List Char → Option (List Char × List Char)}
    (hm : Sound m) :
    ∀ (k : Nat) (l : List Char), (∀ q, q < k → m (l.drop q) = none) →
      scan m l = l.take k ++ scan m (l.drop k) := by
  intro k
  induction k with
  | zero => intro l _; simp
  | succ n ih =>
    intro l h
    cases l with
    | nil => simp [scan]
    | cons c t =>
      have h0 : m (c :: t) = none := by simpa using h 0 (Nat.succ_pos n)
      have ht : scan m t = t.take n ++ scan m (t.drop n) :=
        ih t (fun q hq => by simpa using h (q + 1) (Nat.succ_lt_succ hq))
      rw [scan_cons_none hm h0, ht]
      simp

/-- The scanner moves past a block no suffix of which can open a match. -/
theorem scan_append_inert {m : List Char → Option (List Char × List Char)}
    (hm : Sound m) (b x : List Char)
    (hb : ∀ q, q < b.length → m (b.drop q ++ x) = none) :
    scan m (b ++ x) = b ++ scan m x := by
  have h := scan_copy hm b.length (b ++ x) (fun q hq => by
    rw [List.drop_append_of_le_length (Nat.le_of_lt hq)]
    exact hb q hq)
  rw [h, List.take_left, List.drop_left]

/-- A buffer without any match is left byte-identical by the scanner. -/
theorem scan_id_of_no_match {m : List Char → Option (List Char × List Char)}
    (hm : Sound m) :
    ∀ l, anyMatch m l = false → scan m l = l := by
  intro l
  induction l with
  | nil => intro _; rfl
  | cons c t ih =>
    intro h
    rw [anyMatch] at h
    have h1 : m (c :: t) = none := by
      cases hc : m (c :: t) with
      | none => rfl
      | some pr => rw [hc] at h; simp at h
    have h2 : anyMatch m t = false := by
      rw [h1] at h
      simpa using h
    rw [scan_cons_none hm h1, ih h2]

/-- Pointwise equal matchers scan identically. -/
theorem scanCore_congr {m m' : List Char → Option (List Char × List Char)}
    (h : ∀ l, m l = m' l) :
    ∀ (k : Nat) (l : List Char), scanCore m k l = scanCore m' k l := by
  intro k l
  induction l generalizing k with
  | nil => cases k <;> rfl
  | cons c t ih =>
    cases k with
    | succ n => simpa [scanCore] using ih n
    | zero =>
      simp only [scanCore, h (c :: t)]
      cases m' (c :: t) with
      | none => simp [ih 0]
      | some pr => simp [ih]

/-- Unpacking a successful `dropLit`. -/
theorem dropLit_some {p l r : List Char} (h : dropLit p l = some r) :
    r = l.drop p.length ∧ p <+: l := by
  by_cases hp : p.isPrefixOf l
  · rw [dropLit, if_pos hp] at h
    exact ⟨(Option.some_inj.mp h).symm, List.isPrefixOf_iff_prefix.mp hp⟩
  · rw [dropLit, if_neg hp] at h
    cases h

/-- `dropLit` succeeds on its own literal followed by anything. -/
theorem dropLit_append (p x : List Char) : dropLit p (p ++ x) = some x := by
  rw [dropLit, if_pos ( List.isPrefixOf_iff_prefix.mpr (List.prefix_append p x))]
  rw [List.drop_left]

/-- The remainder of a successful `dropLit` is a suffix of the input. -/
theorem dropLit_suffix {p l r : List Char} (h : dropLit p l = some r) :
    r <:+ l := by
  rw [(dropLit_some h).1]
  exact List.drop_suffix _ _

/-- The remainder of a successful non-empty `dropLit` is strictly shorter. -/
theorem dropLit_length {p l r : List Char} (h : dropLit p l = some r)
    (hp : p ≠ []) : r.length < l.length := by
  obtain ⟨hr, hpre⟩ := dropLit_some h
  have h1 : 0 < p.length := List.length_pos.mpr hp
  have h2 : p.length ≤ l.length := hpre.length_le
  rw [hr, List.length_drop]
  omega

/-- A declaration match consumes a strict, suffix-respecting region. -/
theorem matchPkgAt_spec {name l rem : List Char}
    (h : matchPkgAt name l = some rem) : rem <:+ l ∧ rem.length < l.length := by
  rw [matchPkgAt] at h
  cases h1 : dropLit pkgPat1 l with
  | none => simp [h1] at h
  | some l1 =>
    simp only [h1] at h
    cases h2 : dropLit (nameSeg name) (l1.dropWhile isSpaceChar) with
    | none => simp [h2] at h
    | some l3 =>
      simp only [h2] at h
      have s1 : l1 <:+ l := dropLit_suffix h1
      have s1l : l1.length < l.length := dropLit_length h1 (by decide)
      have s2 : l1.dropWhile isSpaceChar <:+ l1 := List.dropWhile_suffix _
      have s3 : l3 <:+ l1.dropWhile isSpaceChar := dropLit_suffix h2
      have s4 : l3.dropWhile isSpaceChar <:+ l3 := List.dropWhile_suffix _
      have s5 : rem <:+ l3.dropWhile isSpaceChar := dropLit_suffix h
      have s6 : rem <:+ l1 := (((s5.trans s4).trans s3).trans s2)
      exact ⟨s6.trans s1, lt_of_le_of_lt s6.length_le s1l⟩

/-- The declaration matcher is sound. -/
theorem pkgMatcher_sound (name : List Char) : Sound (pkgMatcher name) := by
  intro l rep rem h
  rw [pkgMatcher] at h
  cases hm : matchPkgAt name l with
  | none => rw [hm] at h; cases h
  | some r =>
    rw [hm] at h
    have h' : some (pkgRep, r) = some (rep, rem) := by simpa using h
    have hr : r = rem := congrArg Prod.snd (Option.some.inj h')
    rw [hr] at hm
    exact matchPkgAt_spec hm

/-- The pin matcher is sound. -/
theorem matchRevAt_sound : Sound matchRevAt := by
  intro l rep rem h
  rw [matchRevAt] at h
  cases h1 : dropLit revPat1 l with
  | none => simp [h1] at h
  | some l1 =>
    simp only [h1] at h
    by_cases hs : l1.takeWhile (fun c => c != '"') = []
    · rw [if_pos hs] at h; cases h
    · rw [if_neg hs] at h
      cases h2 : dropLit revPat2 (l1.dropWhile (fun c => c != '"')) with
      | none => simp [h2] at h
      | some r =>
        simp only [h2] at h
        have hr : r = rem := congrArg Prod.snd (Option.some.inj h)
        rw [hr] at h2
        have s1 : l1 <:+ l := dropLit_suffix h1
        have s1l : l1.length < l.length := dropLit_length h1 (by decide)
        have s2 : l1.dropWhile (fun c => c != '"') <:+ l1 :=
          List.dropWhile_suffix _
        have s3 : rem <:+ l1.dropWhile (fun c => c != '"') := dropLit_suffix h2
        have s4 : rem <:+ l1 := s3.trans s2
        exact ⟨s4.trans s1, lt_of_le_of_lt s4.length_le s1l⟩

/-- The literal matcher is sound. -/
theorem litMatcher_sound (p r : List Char) : Sound (litMatcher p r) := by
  intro l rep rem h
  by_cases hc : p ≠ [] ∧ p.isPrefixOf l
  · rw [litMatcher, if_pos hc] at h
    have hrem : rem = l.drop p.length :=
      (congrArg Prod.snd (Option.some.inj h)).symm
    have h1 : 0 < p.length := List.length_pos.mpr hc.1
    have h2 : p.length ≤ l.length :=
      ( List.isPrefixOf_iff_prefix.mp hc.2).length_le
    constructor
    · rw [hrem]; exact List.drop_suffix _ _
    · rw [hrem, List.length_drop]; omega
  · rw [litMatcher, if_neg hc] at h
    cases h

/-- The multi-literal matcher is sound. -/
theorem multiMatcher_sound (ps : List (List Char × List Char)) :
    Sound (multiMatcher ps) := by
  induction ps with
  | nil => intro l rep rem h; cases h
  | cons pr rest ih =>
    intro l rep rem h
    rw [multiMatcher] at h
    by_cases hc : pr.1 ≠ [] ∧ pr.1.isPrefixOf l
    · rw [if_pos hc] at h
      have hrem : rem = l.drop pr.1.length :=
        (congrArg Prod.snd (Option.some.inj h)).symm
      have h1 : 0 < pr.1.length := List.length_pos.mpr hc.1
      have h2 : pr.1.length ≤ l.length :=
        ( List.isPrefixOf_iff_prefix.mp hc.2).length_le
      constructor
      · rw [hrem]; exact List.drop_suffix _ _
      · rw [hrem, List.length_drop]; omega
    · rw [if_neg hc] at h
      exact ih l rep rem h

/-- The literal matcher fails exactly when the pattern is not a prefix. -/
theorem litMatcher_eq_none {p r l : List Char} (_hp : p ≠ [])
    (h : ¬ p <+: l) : litMatcher p r l = none := by
  rw [litMatcher, if_neg]
  intro hc
  exact h ( List.isPrefixOf_iff_prefix.mp hc.2)

/-- The literal matcher fires on a prefix occurrence of the pattern. -/
theorem litMatcher_eq_some {p r l : List Char} (hp : p ≠ []) (h : p <+: l) :
    litMatcher p r l = some (r, l.drop p.length) := by
  rw [litMatcher, if_pos ⟨hp, List.isPrefixOf_iff_prefix.mpr h⟩]

/-- `replaceAll` on a buffer starting with the pattern. -/
theorem replaceAll_head {p r l : List Char} (hp : p ≠ []) (h : p <+: l) :
    replaceAll p r l = r ++ replaceAll p r (l.drop p.length) :=
  scan_some (litMatcher_sound p r) (litMatcher_eq_some hp h)

/-- `replaceAll` copies a non-matching head character. -/
theorem replaceAll_cons {p r : List Char} {c : Char} {t : List Char}
    (hp : p ≠ []) (h : ¬ p <+: c :: t) :
    replaceAll p r (c :: t) = c :: replaceAll p r t :=
  scan_cons_none (litMatcher_sound p r) (litMatcher_eq_none hp h)

/-- `replaceAll` of the empty buffer. -/
theorem replaceAll_nil (p r : List Char) : replaceAll p r [] = [] := rfl

/-- When no suffix of `a` is compatible with the start of the replacement
`r`, rewriting cannot create a prefix occurrence of any suffix of `a`: if
`a.drop j` heads the rewritten buffer it already headed the original. -/
theorem pre_of_replaceAll {p r a : List Char} (hp : p ≠ [])
    (hfree : SufpreFree a r) :
    ∀ (u : List Char) (j : Nat), j < a.length →
      a.drop j <+: replaceAll p r u → a.drop j <+: u := by
  intro u
  induction u with
  | nil => intro j hj h; rwa [replaceAll_nil] at h
  | cons c t ih =>
    intro j hj h
    by_cases hm : p <+: c :: t
    · rw [replaceAll_head hp hm] at h
      rcases pre_append_split h with h1 | h1
      · exact absurd (Or.inl h1) (hfree j hj)
      · exact absurd (Or.inr h1) (hfree j hj)
    · rw [replaceAll_cons hp hm] at h
      have hdj : a.drop j = a[j] :: a.drop (j + 1) := List.drop_eq_getElem_cons hj
      rw [hdj, List.cons_prefix_cons] at h
      obtain ⟨hc, htail⟩ := h
      by_cases hj1 : j + 1 < a.length
      · rw [hdj, List.cons_prefix_cons]
        exact ⟨hc, ih (j + 1) hj1 htail⟩
      · have hnil : a.drop (j + 1) = [] := List.drop_eq_nil_of_le (by omega)
        rw [hdj, List.cons_prefix_cons, hnil]
        exact ⟨hc, List.nil_prefix⟩

/-- When a different pattern `pi` occupies the head and the running pattern
cannot overlap it, `replaceAll` copies the `pi` region verbatim. -/
theorem replaceAll_copy_head {p r pi : List Char} (hp : p ≠ [])
    (hfree : SufpreFree pi p) {l : List Char} (hpre : pi <+: l)
    (hhead : ¬ p <+: l) :
    replaceAll p r l = pi ++ replaceAll p r (l.drop pi.length) := by
  have side : ∀ q, q < pi.length → litMatcher p r (l.drop q) = none := by
    intro q hq
    apply litMatcher_eq_none hp
    intro hpq
    rcases Nat.eq_zero_or_pos q with h0 | h0
    · rw [h0] at hpq
      simp at hpq
      exact hhead hpq
    · have hdq : pi.drop q <+: l.drop q := by
        obtain ⟨t, rfl⟩ := hpre
        rw [List.drop_append_of_le_length (Nat.le_of_lt hq)]
        exact List.prefix_append _ _
      rcases List.prefix_or_prefix_of_prefix hdq hpq with h1 | h1
      · exact hfree q hq (Or.inl h1)
      · exact hfree q hq (Or.inr h1)
  have hcopy := scan_copy (litMatcher_sound p r) pi.length l side
  have htake : l.take pi.length = pi := by
    obtain ⟨t, rfl⟩ := hpre
    rw [List.take_left]
  show scan (litMatcher p r) l = pi ++ scan (litMatcher p r) (l.drop pi.length)
  rw [hcopy, htake]

/-- Restriction of the non-interference conditions to the tail. -/
theorem goodPairs_cons {x : List Char × List Char}
    {ps : List (List Char × List Char)} (h : GoodPairs (x :: ps)) :
    GoodPairs ps := by
  obtain ⟨hnd, hne, hint⟩ := h
  exact ⟨(List.nodup_cons.mp hnd).2,
    fun pr hpr => hne pr (List.mem_cons_of_mem x hpr),
    fun pr hpr pr' hpr' hneq =>
      hint pr (List.mem_cons_of_mem x hpr) pr' (List.mem_cons_of_mem x hpr') hneq⟩

/-- A block none of whose suffixes can open a pattern of the family is moved
past unchanged by the whole sequential replacement chain. -/
theorem seqReplace_append_inert (b : List Char) :
    ∀ (ps : List (List Char × List Char)),
      (∀ pr ∈ ps, pr.1 ≠ [] ∧ SufpreFree b pr.1) →
      ∀ x, seqReplace ps (b ++ x) = b ++ seqReplace ps x := by
  intro ps
  induction ps with
  | nil => intro _ x; rfl
  | cons pr rest ih =>
    intro hps x
    have hpr := hps pr (List.mem_cons_self pr rest)
    have h1 : replaceAll pr.1 pr.2 (b ++ x) = b ++ replaceAll pr.1 pr.2 x := by
      apply scan_append_inert (litMatcher_sound _ _)
      intro q hq
      apply litMatcher_eq_none hpr.1
      intro hpq
      rcases pre_append_split hpq with h1 | h1
      · exact hpr.2 q hq (Or.inr h1)
      · exact hpr.2 q hq (Or.inl h1)
    show seqReplace rest (replaceAll pr.1 pr.2 (b ++ x)) =
      b ++ seqReplace rest (replaceAll pr.1 pr.2 x)
    rw [h1]
    exact ih (fun q hq => hps q (List.mem_cons_of_mem pr hq)) _

/-- When no pattern of a non-interfering family matches at the head, the
whole sequential chain copies the head character. -/
theorem seqReplace_cons :
    ∀ (ps : List (List Char × List Char)), GoodPairs ps →
      ∀ (c : Char) (t : List Char), (∀ pr ∈ ps, ¬ pr.1 <+: c :: t) →
        seqReplace ps (c :: t) = c :: seqReplace ps t := by
  intro ps
  induction ps with
  | nil => intro _ c t _; rfl
  | cons x rest ih =>
    intro hg c t hnm
    have hx1 : x.1 ≠ [] := hg.2.1 x (List.mem_cons_self x rest)
    have hxh : ¬ x.1 <+: c :: t := hnm x (List.mem_cons_self x rest)
    have h1 : replaceAll x.1 x.2 (c :: t) = c :: replaceAll x.1 x.2 t :=
      replaceAll_cons hx1 hxh
    show seqReplace rest (replaceAll x.1 x.2 (c :: t)) =
      c :: seqReplace rest (replaceAll x.1 x.2 t)
    rw [h1]
    apply ih (goodPairs_cons hg)
    intro pr hpr hpre
    have hxne : pr ≠ x := by
      intro he
      rw [he] at hpr
      exact (List.nodup_cons.mp hg.1).1 hpr
    have hfree : SufpreFree pr.1 x.2 :=
      (hg.2.2 pr (List.mem_cons_of_mem x hpr) x (List.mem_cons_self x rest) hxne).2.1
    have hlen : 0 < pr.1.length :=
      List.length_pos.mpr (hg.2.1 pr (List.mem_cons_of_mem x hpr))
    have h2 : pr.1 <+: replaceAll x.1 x.2 (c :: t) := by
      rw [h1]; exact hpre
    have h3 := pre_of_replaceAll hx1 hfree (c :: t) 0 hlen (by simpa using h2)
    exact hnm pr (List.mem_cons_of_mem x hpr) (by simpa using h3)

/-- When exactly one pattern of a non-interfering family matches at the
head, the whole sequential chain rewrites that occurrence and continues
after it. -/
theorem seqReplace_match :
    ∀ (ps : List (List Char × List Char)), GoodPairs ps →
      ∀ (l : List Char) (pi : List Char × List Char), pi ∈ ps →
        pi.1 <+: l → (∀ pr ∈ ps, pr.1 <+: l → pr = pi) →
        seqReplace ps l = pi.2 ++ seqReplace ps (l.drop pi.1.length) := by
  intro ps
  induction ps with
  | nil => intro _ l pi hmem; exact absurd hmem (List.not_mem_nil pi)
  | cons x rest ih =>
    intro hg l pi hmem hpre huniq
    by_cases hx : x.1 <+: l
    · have hxpi : x = pi := huniq x (List.mem_cons_self x rest) hx
      subst hxpi
      have hx1 : x.1 ≠ [] := hg.2.1 x (List.mem_cons_self x rest)
      have h1 : replaceAll x.1 x.2 l = x.2 ++ replaceAll x.1 x.2 (l.drop x.1.length) :=
        replaceAll_head hx1 hx
      show seqReplace rest (replaceAll x.1 x.2 l) =
        x.2 ++ seqReplace rest (replaceAll x.1 x.2 (l.drop x.1.length))
      rw [h1]
      apply seqReplace_append_inert x.2 rest
      intro pr hpr
      have hxne : x ≠ pr := by
        intro he
        rw [he] at hg
        exact (List.nodup_cons.mp hg.1).1 hpr
      exact ⟨goodPairs_cons hg |>.2.1 pr hpr,
        (hg.2.2 x (List.mem_cons_self x rest) pr (List.mem_cons_of_mem x hpr) (fun he => hxne he)).2.2⟩
    · have hpix : pi ≠ x := by
        intro he
        rw [he] at hpre
        exact hx hpre
      have hpirest : pi ∈ rest := by
        rcases List.mem_cons.mp hmem with h | h
        · exact absurd h hpix
        · exact h
      have hx1 : x.1 ≠ [] := hg.2.1 x (List.mem_cons_self x rest)
      have hfree_pi_x : SufpreFree pi.1 x.1 :=
        (hg.2.2 pi hmem x (List.mem_cons_self x rest) hpix).1
      have h1 : replaceAll x.1 x.2 l = pi.1 ++ replaceAll x.1 x.2 (l.drop pi.1.length) :=
        replaceAll_copy_head hx1 hfree_pi_x hpre hx
      show seqReplace rest (replaceAll x.1 x.2 l) =
        pi.2 ++ seqReplace rest (replaceAll x.1 x.2 (l.drop pi.1.length))
      rw [h1]
      have hgr := goodPairs_cons hg
      have hpre2 : pi.1 <+: pi.1 ++ replaceAll x.1 x.2 (l.drop pi.1.length) :=
        List.prefix_append _ _
      have huniq2 : ∀ pr ∈ rest,
          pr.1 <+: pi.1 ++ replaceAll x.1 x.2 (l.drop pi.1.length) → pr = pi := by
        intro pr hpr hp
        by_contra hne
        have hfree2 : SufpreFree pr.1 pi.1 := (hgr.2.2 pr hpr pi hpirest hne).1
        have hlen : 0 < pr.1.length := List.length_pos.mpr (hgr.2.1 pr hpr)
        rcases List.prefix_or_prefix_of_prefix hp hpre2 with h | h
        · exact hfree2 0 hlen (by simpa using Or.inl h)
        · exact hfree2 0 hlen (by simpa using Or.inr h)
      have hres := ih hgr (pi.1 ++ replaceAll x.1 x.2 (l.drop pi.1.length)) pi
        hpirest hpre2 huniq2
      rw [hres]
      congr 1
      rw [List.drop_left]

/-- The multi-literal matcher fails exactly when no pattern matches. -/
theorem multiMatcher_none_iff {ps : List (List Char × List Char)}
    {l : List Char} :
    multiMatcher ps l = none ↔ ∀ pr ∈ ps, ¬(pr.1 ≠ [] ∧ pr.1 <+: l) := by
  induction ps with
  | nil => simp [multiMatcher]
  | cons x rest ih =>
    rw [multiMatcher]
    by_cases hc : x.1 ≠ [] ∧ x.1.isPrefixOf l
    · rw [if_pos hc]
      constructor
      · intro h; cases h
      · intro h
        exact absurd ⟨hc.1, List.isPrefixOf_iff_prefix.mp hc.2⟩
          (h x (List.mem_cons_self x rest))
    · rw [if_neg hc, ih]
      constructor
      · intro h pr hpr
        rcases List.mem_cons.mp hpr with he | hm
        · rw [he]
          intro hcc
          exact hc ⟨hcc.1, List.isPrefixOf_iff_prefix.mpr hcc.2⟩
        · exact h pr hm
      · intro h pr hpr
        exact h pr (List.mem_cons_of_mem x hpr)

/-- A successful multi-literal match comes from a member pair matching at
the head. -/
theorem multiMatcher_some_spec {ps : List (List Char × List Char)}
    {l : List Char} {x : List Char × List Char}
    (h : multiMatcher ps l = some x) :
    ∃ pr ∈ ps, pr.1 ≠ [] ∧ pr.1 <+: l ∧ x = (pr.2, l.drop pr.1.length) := by
  induction ps with
  | nil => cases h
  | cons pr0 rest ih =>
    rw [multiMatcher] at h
    by_cases hc : pr0.1 ≠ [] ∧ pr0.1.isPrefixOf l
    · rw [if_pos hc] at h
      exact ⟨pr0, List.mem_cons_self _ _, hc.1,
        List.isPrefixOf_iff_prefix.mp hc.2, (Option.some.inj h).symm⟩
    · rw [if_neg hc] at h
      obtain ⟨pr, hm, hrest⟩ := ih h
      exact ⟨pr, List.mem_cons_of_mem _ hm, hrest⟩

/-- In a non-interfering family at most one pattern can match at a given
position, so its head match is determined by membership alone. -/
theorem goodPairs_match_unique {ps : List (List Char × List Char)}
    (hg : GoodPairs ps) {l : List Char} {pr pr' : List Char × List Char}
    (hm : pr ∈ ps) (hm' : pr' ∈ ps) (hp : pr.1 <+: l) (hp' : pr'.1 <+: l) :
    pr = pr' := by
  by_contra hne
  have hfree : SufpreFree pr.1 pr'.1 := (hg.2.2 pr hm pr' hm' hne).1
  have hlen : 0 < pr.1.length := List.length_pos.mpr (hg.2.1 pr hm)
  rcases List.prefix_or_prefix_of_prefix hp hp' with h | h
  · exact hfree 0 hlen (by simpa using Or.inl h)
  · exact hfree 0 hlen (by simpa using Or.inr h)

/-- For a non-interfering family the multi-literal matcher is invariant
under permuting the family. -/
theorem multiMatcher_perm {ps ps' : List (List Char × List Char)}
    (hperm : ps.Perm ps') (hg : GoodPairs ps) (l : List Char) :
    multiMatcher ps l = multiMatcher ps' l := by
  cases h : multiMatcher ps l with
  | none =>
    have hnone := multiMatcher_none_iff.mp h
    exact (multiMatcher_none_iff.mpr
      (fun pr hpr => hnone pr (hperm.mem_iff.mpr hpr))).symm
  | some x =>
    obtain ⟨pr, hmem, hne, hpre, hx⟩ := multiMatcher_some_spec h
    cases h' : multiMatcher ps' l with
    | none =>
      exact absurd ⟨hne, hpre⟩
        (multiMatcher_none_iff.mp h' pr (hperm.mem_iff.mp hmem))
    | some y =>
      obtain ⟨pr', hmem', hne', hpre', hy⟩ := multiMatcher_some_spec h'
      have : pr = pr' :=
        goodPairs_match_unique hg hmem (hperm.mem_iff.mpr hmem') hpre hpre'
      rw [hx, hy, this]

/-- Sequential replacement of the empty buffer. -/
theorem seqReplace_nil (ps : List (List Char × List Char)) :
    seqReplace ps [] = [] := by
  induction ps with
  | nil => rfl
  | cons x rest ih =>
    show seqReplace rest (replaceAll x.1 x.2 []) = []
    rw [replaceAll_nil]
    exact ih

/-- For a non-interfering family, applying the literal replacements one
after another (as the script does) equals the simultaneous one-pass
replacement. -/
theorem seqReplace_eq_sim {ps : List (List Char × List Char)}
    (hg : GoodPairs ps) : ∀ l, seqReplace ps l = replaceSim ps l := by
  have main : ∀ (n : Nat) (l : List Char), l.length ≤ n →
      seqReplace ps l = replaceSim ps l := by
    intro n
    induction n with
    | zero =>
      intro l hl
      have : l = [] := List.length_eq_zero.mp (Nat.le_zero.mp hl)
      rw [this, seqReplace_nil]
      rfl
    | succ n ih =>
      intro l hl
      cases hm : multiMatcher ps l with
      | none =>
        cases l with
        | nil => rw [seqReplace_nil]; rfl
        | cons c t =>
          have hnm : ∀ pr ∈ ps, ¬ pr.1 <+: c :: t := by
            intro pr hpr hp
            exact multiMatcher_none_iff.mp hm pr hpr ⟨hg.2.1 pr hpr, hp⟩
          rw [seqReplace_cons ps hg c t hnm]
          rw [replaceSim, scan_cons_none (multiMatcher_sound ps) hm]
          rw [ih t (by simp only [List.length_cons] at hl; omega)]
          rfl
      | some x =>
        obtain ⟨pr, hmem, hne, hpre, hx⟩ := multiMatcher_some_spec hm
        have huniq : ∀ pr' ∈ ps, pr'.1 <+: l → pr' = pr :=
          fun pr' hm' hp' => goodPairs_match_unique hg hm' hmem hp' hpre
        rw [seqReplace_match ps hg l pr hmem hpre huniq]
        rw [replaceSim, scan_some (multiMatcher_sound ps) hm, hx]
        congr 1
        have hlt : (l.drop pr.1.length).length ≤ n := by
          have h1 : 0 < pr.1.length := List.length_pos.mpr hne
          have h2 : pr.1.length ≤ l.length := hpre.length_le
          rw [List.length_drop]
          omega
        exact ih _ hlt
  exact fun l => main l.length l (le_refl _)

/-- Non-interference conditions transfer along permutations. -/
theorem goodPairs_perm {ps ps' : List (List Char × List Char)}
    (hperm : ps.Perm ps') (hg : GoodPairs ps) : GoodPairs ps' := by
  obtain ⟨hnd, hne, hint⟩ := hg
  exact ⟨hnd.perm hperm,
    fun pr hpr => hne pr (hperm.mem_iff.mpr hpr),
    fun pr hpr pr' hpr' hneq =>
      hint pr (hperm.mem_iff.mpr hpr) pr' (hperm.mem_iff.mpr hpr') hneq⟩

/-- Scanning with pointwise equal matchers is identical. -/
theorem scan_congr {m m' : List Char → Option (List Char × List Char)}
    (h : ∀ l, m l = m' l) (l : List Char) : scan m l = scan m' l :=
  scanCore_congr h 0 l

/-- Sequential replacement in any permuted order equals replacement in the
family's given order, for a non-interfering family. -/
theorem seqReplace_perm {ps ps' : List (List Char × List Char)}
    (hperm : ps.Perm ps') (hg : GoodPairs ps) (l : List Char) :
    seqReplace ps' l = seqReplace ps l := by
  rw [seqReplace_eq_sim (goodPairs_perm hperm hg) l, seqReplace_eq_sim hg l]
  exact scan_congr (fun u => (multiMatcher_perm hperm hg u).symm) l

/-- The five rename pairs of the script satisfy the decidable
non-interference conditions. -/
theorem renamePairs_good : GoodPairs renamePairs := by
  unfold GoodPairs SufpreFree
  decide

/-- `takeWhile` and `dropWhile` across a satisfying block followed by a
failing character. -/
theorem takeWhile_app (q : Char → Bool) (s : List Char)
    (hs : ∀ x ∈ s, q x = true) (c : Char) (hc : q c = false) (t : List Char) :
    (s ++ c :: t).takeWhile q = s ∧ (s ++ c :: t).dropWhile q = c :: t := by
  induction s with
  | nil => simp [List.takeWhile_cons, List.dropWhile_cons, hc]
  | cons a s ih =>
    have ha : q a = true := hs a (List.mem_cons_self a s)
    obtain ⟨h1, h2⟩ := ih (fun x hx => hs x (List.mem_cons_of_mem a hx))
    simp [List.takeWhile_cons, List.dropWhile_cons, ha, h1, h2]

/-- The declaration matcher fires on a whitespace-padded declaration and
consumes exactly through `url:`. -/
theorem matchPkgAt_head (name ws1 ws2 rest : List Char)
    (h1 : ∀ c ∈ ws1, isSpaceChar c = true)
    (h2 : ∀ c ∈ ws2, isSpaceChar c = true) :
    matchPkgAt name
        (pkgPat1 ++ (ws1 ++ (nameSeg name ++ (ws2 ++ (pkgPat2 ++ rest))))) =
      some rest := by
  have hn : nameSeg name ++ (ws2 ++ (pkgPat2 ++ rest)) =
      'n' :: ("ame: \"".toList ++ (name ++ ("\",".toList ++ (ws2 ++ (pkgPat2 ++ rest))))) := by
    rw [nameSeg]
    simp [List.append_assoc]
  have hu : pkgPat2 ++ rest = 'u' :: ("rl:".toList ++ rest) := rfl
  have key1 : (ws1 ++ (nameSeg name ++ (ws2 ++ (pkgPat2 ++ rest)))).dropWhile isSpaceChar =
      nameSeg name ++ (ws2 ++ (pkgPat2 ++ rest)) := by
    rw [hn]
    exact (takeWhile_app isSpaceChar ws1 h1 'n' (by decide) _).2
  have key2 : (ws2 ++ (pkgPat2 ++ rest)).dropWhile isSpaceChar = pkgPat2 ++ rest := by
    rw [hu]
    exact (takeWhile_app isSpaceChar ws2 h2 'u' (by decide) _).2
  simp only [matchPkgAt, dropLit_append, key1, key2]

/-- The pin matcher fires on a pin with a non-empty quote-free value and
reports the substituted replacement. -/
theorem matchRevAt_head (s rest : List Char) (hne : s ≠ [])
    (hq : ∀ c ∈ s, c ≠ '"') :
    matchRevAt (revPat1 ++ (s ++ (revPat2 ++ rest))) =
      some (revRepPre ++ s ++ ['"'], rest) := by
  have hb : ∀ x ∈ s, (x != '"') = true := by
    intro x hx
    simpa using hq x hx
  have hrev : revPat2 ++ rest = '"' :: (')' :: rest) := rfl
  have ktw : (s ++ (revPat2 ++ rest)).takeWhile (fun c => c != '"') = s := by
    rw [hrev]
    exact (takeWhile_app (fun c => c != '"') s hb '"' (by decide) _).1
  have kdw : (s ++ (revPat2 ++ rest)).dropWhile (fun c => c != '"') = revPat2 ++ rest := by
    rw [hrev]
    exact (takeWhile_app (fun c => c != '"') s hb '"' (by decide) _).2
  simp only [matchRevAt, dropLit_append, ktw, kdw, if_neg hne]

/-- `subPkg` rewrites a whitespace-padded declaration at the head of the
buffer and continues after it. -/
theorem subPkg_head (name ws1 ws2 rest : List Char)
    (h1 : ∀ c ∈ ws1, isSpaceChar c = true)
    (h2 : ∀ c ∈ ws2, isSpaceChar c = true) :
    subPkg name (pkgPat1 ++ (ws1 ++ (nameSeg name ++ (ws2 ++ (pkgPat2 ++ rest))))) =
      pkgRep ++ subPkg name rest := by
  apply scan_some (pkgMatcher_sound name)
  rw [pkgMatcher, matchPkgAt_head name ws1 ws2 rest h1 h2]
  rfl

/-- `subRev` rewrites a pin with non-empty quote-free value at the head of
the buffer, keeps the value verbatim, and continues after the pin. -/
theorem subRev_head (s rest : List Char) (hne : s ≠ [])
    (hq : ∀ c ∈ s, c ≠ '"') :
    subRev (revPat1 ++ (s ++ (revPat2 ++ rest))) =
      (revRepPre ++ s ++ ['"']) ++ subRev rest := by
  apply scan_some matchRevAt_sound
  exact matchRevAt_head s rest hne hq

/-- A buffer with no declaration match anywhere is untouched by `subPkg`. -/
theorem subPkg_id (name l : List Char)
    (h : anyMatch (pkgMatcher name) l = false) : subPkg name l = l :=
  scan_id_of_no_match (pkgMatcher_sound name) l h

/-- A buffer with no pin match anywhere is untouched by `subRev`. -/
theorem subRev_id (l : List Char) (h : anyMatch matchRevAt l = false) :
    subRev l = l :=
  scan_id_of_no_match matchRevAt_sound l h

/-- A buffer with no literal occurrence anywhere is untouched by
`replaceAll`. -/
theorem replaceAll_id (p r l : List Char)
    (h : anyMatch (litMatcher p r) l = false) : replaceAll p r l = l :=
  scan_id_of_no_match (litMatcher_sound p r) l h

/-- A buffer free of all the family's literals is untouched by the whole
sequential chain. -/
theorem seqReplace_id {ps : List (List Char × List Char)} {l : List Char}
    (h : ∀ pr ∈ ps, anyMatch (litMatcher pr.1 pr.2) l = false) :
    seqReplace ps l = l := by
  induction ps with
  | nil => rfl
  | cons x rest ih =>
    show seqReplace rest (replaceAll x.1 x.2 l) = l
    rw [replaceAll_id x.1 x.2 l (h x (List.mem_cons_self x rest))]
    exact ih (fun pr hpr => h pr (List.mem_cons_of_mem x hpr))

/-- A buffer in which none of the twelve substitutions fires is a fixed
point of the whole transform. -/
theorem fix_content_id {l : List Char} (h : noResidual l = true) :
    fix_content l = l := by
  rw [noResidual] at h
  simp only [Bool.and_eq_true, List.all_eq_true, Bool.not_eq_true'] at h
  obtain ⟨⟨hpkg, hrev⟩, hren⟩ := h
  have e1 : subPkg nmAppAuth l = l :=
    subPkg_id _ _ (hpkg nmAppAuth (by simp [pkgNames]))
  have e2 : subPkg nmAppCheck l = l :=
    subPkg_id _ _ (hpkg nmAppCheck (by simp [pkgNames]))
  have e3 : subPkg nmGTMAppAuth l = l :=
    subPkg_id _ _ (hpkg nmGTMAppAuth (by simp [pkgNames]))
  have e4 : subPkg nmGTMSessionFetcher l = l :=
    subPkg_id _ _ (hpkg nmGTMSessionFetcher (by simp [pkgNames]))
  have e5 : subPkg nmGoogleUtilities l = l :=
    subPkg_id _ _ (hpkg nmGoogleUtilities (by simp [pkgNames]))
  have e6 : subPkg nmOCMock l = l :=
    subPkg_id _ _ (hpkg nmOCMock (by simp [pkgNames]))
  have e7 : subRev l = l := subRev_id l hrev
  have e8 : applyRenames l = l := seqReplace_id hren
  rw [fix_content, e1, e2, e3, e4, e5, e6, e7, e8]

/-- C1, counterexample to the claim as stated: the declaration
`.package(name:  "AppAuth", url: "https://x")` differs from the targeted
shape only by interior whitespace (two spaces after `name:`), yet the
rewrite leaves it byte-identical and the output does not contain the
single-argument form. -/
theorem c1_counterexample :
    fix_content exDeclWsIn = exDeclWsIn ∧
      ¬ exDeclOut <:+: fix_content exDeclWsIn := by
  constructor
  · decide
  · decide

/-- C1 (amended): for each of the six target names, a two-argument
declaration is reduced to `.package(url:` when arbitrary whitespace appears
after the opening parenthesis and between the comma and `url:`, while the
segment `name: "<N>",` appears verbatim with its single spaces; buffers in
which the pattern fires nowhere (in particular declarations referencing
other names) are left byte-identical; the specification's end-to-end
example holds and a declaration naming a non-target dependency is
untouched. -/
theorem c1_declaration_rewrite :
    (∀ name ∈ pkgNames, ∀ ws1 ws2 rest : List Char,
        (∀ c ∈ ws1, isSpaceChar c = true) → (∀ c ∈ ws2, isSpaceChar c = true) →
        subPkg name
            (pkgPat1 ++ (ws1 ++ (nameSeg name ++ (ws2 ++ (pkgPat2 ++ rest))))) =
          pkgRep ++ subPkg name rest) ∧
    (∀ name ∈ pkgNames, ∀ l : List Char,
        anyMatch (pkgMatcher name) l = false → subPkg name l = l) ∧
    fix_content exDeclIn = exDeclOut ∧
    fix_content exDeclOther = exDeclOther := by
  refine ⟨?_, ?_, ?_, ?_⟩
  · intro name _ ws1 ws2 rest h1 h2
    exact subPkg_head name ws1 ws2 rest h1 h2
  · intro name _ l h
    exact subPkg_id name l h
  · decide
  · decide

/-- C1 witness: the amended theorem evaluated at `AppAuth` with empty and
one-space whitespace gaps, and at a pattern-free buffer. -/
theorem c1_declaration_rewrite_witness :
    subPkg nmAppAuth
        (pkgPat1 ++ ([] ++ (nameSeg nmAppAuth ++ ([' '] ++ (pkgPat2 ++ []))))) =
      pkgRep ++ subPkg nmAppAuth [] ∧
    subPkg nmAppAuth exPlain = exPlain :=
  ⟨c1_declaration_rewrite.1 nmAppAuth (by decide) [] [' '] [] (by decide)
      (by decide),
   c1_declaration_rewrite.2.1 nmAppAuth (by decide) exPlain (by decide)⟩

/-- C2, counterexample to the claim as stated: for the empty string the pin
`.revision("")` is not converted (`[^"]+` requires a non-empty value), and
the output does not contain `revision: ""`. -/
theorem c2_counterexample :
    fix_content exRevEmptyIn = exRevEmptyIn ∧
      ¬ exRevEmptyTarget <:+: fix_content exRevEmptyIn := by
  constructor
  · decide
  · decide

/-- C2 (amended): for every non-empty string `s` without a double quote,
every occurrence of `.revision("s")` is converted to `revision: "s"` with
the value preserved verbatim; buffers where the pin pattern fires nowhere
are left byte-identical; the end-to-end example holds and both pins of a
two-pin buffer are converted. -/
theorem c2_pin_rewrite :
    (∀ s rest : List Char, s ≠ [] → (∀ c ∈ s, c ≠ '"') →
        subRev (revPat1 ++ (s ++ (revPat2 ++ rest))) =
          (revRepPre ++ s ++ ['"']) ++ subRev rest) ∧
    (∀ l : List Char, anyMatch matchRevAt l = false → subRev l = l) ∧
    fix_content exRevIn = exRevOut ∧
    fix_content exRevTwoIn = exRevTwoOut := by
  refine ⟨?_, ?_, ?_, ?_⟩
  · exact subRev_head
  · exact subRev_id
  · decide
  · decide

/-- C2 witness: the amended theorem evaluated at the one-character value
`1` with empty remainder, and at a pattern-free buffer. -/
theorem c2_pin_rewrite_witness :
    subRev (revPat1 ++ (['1'] ++ (revPat2 ++ []))) =
      (revRepPre ++ ['1'] ++ ['"']) ++ subRev [] ∧
    subRev exPlain = exPlain :=
  ⟨c2_pin_rewrite.1 ['1'] [] (by decide) (by decide),
   c2_pin_rewrite.2.1 exPlain (by decide)⟩

/-- C3: each of the five rename pairs rewrites every occurrence of its
literal `package: "<old>"` to `package: "<new>"` (head occurrences are
rewritten and scanning continues after them), buffers without the literal
are untouched, the end-to-end example holds, and a reference to an
unrelated identifier survives the whole rename stage byte-identically. -/
theorem c3_reference_rename :
    (∀ pr ∈ renamePairs, ∀ rest : List Char,
        replaceAll pr.1 pr.2 (pr.1 ++ rest) = pr.2 ++ replaceAll pr.1 pr.2 rest) ∧
    (∀ pr ∈ renamePairs, ∀ l : List Char,
        anyMatch (litMatcher pr.1 pr.2) l = false → replaceAll pr.1 pr.2 l = l) ∧
    fix_content exRenameIn = exRenameOut ∧
    applyRenames exRenameOther = exRenameOther := by
  refine ⟨?_, ?_, ?_, ?_⟩
  · intro pr hpr rest
    have hne : pr.1 ≠ [] := renamePairs_good.2.1 pr hpr
    have h : replaceAll pr.1 pr.2 (pr.1 ++ rest) =
        pr.2 ++ replaceAll pr.1 pr.2 ((pr.1 ++ rest).drop pr.1.length) :=
      replaceAll_head hne (List.prefix_append pr.1 rest)
    rwa [List.drop_left] at h
  · intro pr _ l h
    exact replaceAll_id pr.1 pr.2 l h
  · decide
  · decide

/-- C3 witness: the theorem evaluated at the `AppAuth` rename pair and at a
pattern-free buffer. -/
theorem c3_reference_rename_witness :
    replaceAll (refLit nmAppAuth) (refLit nmAppAuthNew)
        (refLit nmAppAuth ++ []) =
      refLit nmAppAuthNew ++
        replaceAll (refLit nmAppAuth) (refLit nmAppAuthNew) [] ∧
    replaceAll (refLit nmAppAuth) (refLit nmAppAuthNew) exPlain = exPlain :=
  ⟨c3_reference_rename.1 (refLit nmAppAuth, refLit nmAppAuthNew) (by decide) [],
   c3_reference_rename.2.1 (refLit nmAppAuth, refLit nmAppAuthNew) (by decide)
     exPlain (by decide)⟩

/-- C4, counterexample: the transform is not idempotent.  On the buffer
`.revision(".package(name: ")AppAuth", url:` the first run rewrites the pin
and thereby splices its value with the following text into a two-argument
declaration, which only the second run simplifies, so the second run
changes the buffer again and reports a change. -/
theorem c4_counterexample :
    fix_content (fix_content exSplice) ≠ fix_content exSplice ∧
      (fix_package_swift (fix_content exSplice)).2 = true := by
  constructor
  · decide
  · decide

/-- C4 (amended): the transform is idempotent, and a second run reports no
change (returns false), exactly for buffers whose once-rewritten form
contains no residual occurrence of any targeted pattern; by the
counterexample this covers not every input. -/
theorem c4_idempotent_of_noResidual (l : List Char)
    (h : noResidual (fix_content l) = true) :
    fix_content (fix_content l) = fix_content l ∧
      fix_package_swift (fix_content l) = ([], false) := by
  have he : fix_content (fix_content l) = fix_content l := fix_content_id h
  refine ⟨he, ?_⟩
  rw [fix_package_swift]
  simp [he]

/-- C4 witness: the amended theorem evaluated at the specification's pin
example, whose rewritten form has no residual pattern. -/
theorem c4_idempotent_witness :
    fix_content (fix_content exRevIn) = fix_content exRevIn ∧
      fix_package_swift (fix_content exRevIn) = ([], false) :=
  c4_idempotent_of_noResidual exRevIn (by decide)

/-- C5: when the substitution sequence leaves the buffer unchanged the
rewriter performs no file-system operation at all, so content and
permission bits are untouched, and it returns false. -/
theorem c5_no_write_when_unchanged (l : List Char) (h : fix_content l = l) :
    fix_package_swift l = ([], false) ∧
      ∀ mode : Nat, applyOps ⟨l, mode⟩ (fix_package_swift l).1 = ⟨l, mode⟩ := by
  have hfix : fix_package_swift l = ([], false) := by
    rw [fix_package_swift]
    simp [h]
  exact ⟨hfix, fun mode => by rw [hfix]; rfl⟩

/-- C5 witness: the theorem evaluated at a buffer containing none of the
targeted patterns. -/
theorem c5_no_write_witness :
    fix_package_swift exPlain = ([], false) ∧
      ∀ mode : Nat,
        applyOps ⟨exPlain, mode⟩ (fix_package_swift exPlain).1 = ⟨exPlain, mode⟩ :=
  c5_no_write_when_unchanged exPlain (by decide)

/-- C6: when the substitution sequence changes the buffer the rewriter
first sets the permission bits to `0o644`, then overwrites the whole file
with the transformed buffer, and returns true; applying the trace to any
file state yields the new content with mode `0o644`. -/
theorem c6_chmod_write_when_changed (l : List Char) (h : fix_content l ≠ l) :
    fix_package_swift l = ([FsOp.chmod 0o644, FsOp.write (fix_content l)], true) ∧
      ∀ mode : Nat, applyOps ⟨l, mode⟩ (fix_package_swift l).1 =
        ⟨fix_content l, 0o644⟩ := by
  have hfix : fix_package_swift l =
      ([FsOp.chmod 0o644, FsOp.write (fix_content l)], true) := by
    rw [fix_package_swift]
    simp [h]
  exact ⟨hfix, fun mode => by rw [hfix]; rfl⟩

/-- C6 witness: the theorem evaluated at the specification's pin example,
which the transform changes. -/
theorem c6_chmod_write_witness :
    fix_package_swift exRevIn =
        ([FsOp.chmod 0o644, FsOp.write (fix_content exRevIn)], true) ∧
      ∀ mode : Nat, applyOps ⟨exRevIn, mode⟩ (fix_package_swift exRevIn).1 =
        ⟨fix_content exRevIn, 0o644⟩ :=
  c6_chmod_write_when_changed exRevIn (by decide)

/-- C7: the locator is a total function (it never raises); it answers
`none` immediately when the DerivedData base directory is missing, and
otherwise returns exactly the head of the glob result list — the first
match in glob order, or `none` when there is no match — so at most one path
is ever returned. -/
theorem c7_locator (env : LocatorEnv) :
    (env.ddExists = false → find_package_file env = none) ∧
    (env.ddExists = true → find_package_file env = env.globResult.head?) := by
  constructor
  · intro h
    rw [find_package_file, if_pos h]
  · intro h
    rw [find_package_file, if_neg (by simp [h])]
    cases env.globResult with
    | nil => rfl
    | cons m rest => rfl

/-- C7 witness: the theorem evaluated at an environment with a missing base
directory and at one with a single glob match. -/
theorem c7_locator_witness :
    find_package_file envMissing = none ∧
      find_package_file envFound = some exPath :=
  ⟨(c7_locator envMissing).1 rfl, (c7_locator envFound).2 rfl⟩

/-- C8: `main` always finishes with exit code 0, and its observable
behaviour is exactly: two fixed informational lines and no file-system
operation when the locator finds nothing, else the resolved-path line
followed by one of two fixed status lines selected by the rewriter's
boolean result, with the rewriter's file-system trace. -/
theorem c8_main_behaviour (env : MainEnv) :
    (main_run env).exitCode = 0 ∧
    main_run env =
      (match find_package_file env.loc with
       | none => ⟨[msgNotFound1, msgNotFound2], [], 0⟩
       | some p =>
         ⟨[msgFoundPre ++ p,
           if (fix_package_swift env.content).2 then msgFixed else msgAlready],
          (fix_package_swift env.content).1, 0⟩) := by
  constructor
  · rw [main_run]
    cases find_package_file env.loc with
    | none => rfl
    | some p => rfl
  · rw [main_run]

/-- C9: the five reference renames are mutually non-interfering: running
them sequentially in any permuted order, or simultaneously in one pass,
produces the same buffer as the script's fixed sequential order. -/
theorem c9_rename_order_independent (ps : List (List Char × List Char))
    (hperm : renamePairs.Perm ps) (l : List Char) :
    seqReplace ps l = applyRenames l ∧
      replaceSim renamePairs l = applyRenames l := by
  constructor
  · exact seqReplace_perm hperm renamePairs_good l
  · exact (seqReplace_eq_sim renamePairs_good l).symm

/-- C9 witness: the theorem evaluated at the reversed rename list and the
end-to-end rename example. -/
theorem c9_rename_order_witness :
    seqReplace renamePairs.reverse exRenameIn = applyRenames exRenameIn ∧
      replaceSim renamePairs exRenameIn = applyRenames exRenameIn :=
  c9_rename_order_independent renamePairs.reverse (by decide) exRenameIn

/-- C10: whenever the locator returns a path, that path is an instance of
the fixed single-wildcard pattern: it starts with the caller's DerivedData
directory and ends with the fixed checkout tail. -/
theorem c10_locator_path_shape (env : LocatorEnv) (p : List Char)
    (h : find_package_file env = some p) :
    matchesGlobPattern env.home p ∧ derivedDataDir env.home <+: p ∧
      checkoutTail <:+ p := by
  have hmem : p ∈ env.globResult := by
    rw [find_package_file] at h
    by_cases hd : env.ddExists = false
    · rw [if_pos hd] at h
      cases h
    · rw [if_neg hd] at h
      cases hg : env.globResult with
      | nil => rw [hg] at h; cases h
      | cons m rest =>
        rw [hg] at h
        have hm : m = p := Option.some.inj h
        rw [← hm]
        exact List.mem_cons_self m rest
  obtain ⟨seg, hne, hslash, heq⟩ := env.glob_sound p hmem
  refine ⟨⟨seg, hne, hslash, heq⟩, ?_, ?_⟩
  · rw [heq, List.append_assoc]
    exact List.prefix_append _ _
  · rw [heq]
    exact List.suffix_append _ _

/-- C10 witness: the theorem evaluated at the environment with one glob
match. -/
theorem c10_locator_path_witness :
    matchesGlobPattern exHome exPath ∧ derivedDataDir exHome <+: exPath ∧
      checkoutTail <:+ exPath :=
  c10_locator_path_shape envFound exPath rfl
